import Mathlib

/-!
Verification of the schema-explorer core of the Adams Apples repository
(src/app.js).  The definitions below are a shallow embedding of the
data model and of the graph / audit / interaction functions of the
source; the theorems settle the behavioural claims about them.

Conventions of the embedding:
* JavaScript null / undefined object fields become Option.
* A JavaScript Set is observed only through membership (`has`); it is
  embedded as a list with the same membership.
* DOM-writing loops (class toggling, style.opacity assignment) are
  embedded as the pure per-element attribute they compute.
-/

namespace AAExplorer

/-- Foreign key payload of a column: `fk: { table: ..., column: ... }`
in the dataset (data.js). -/
structure ForeignKey where
  table : String
  column : String
deriving Repr, DecidableEq

/-- Table column as it appears in the dataset: only the fields the core
reads (`name`, `pk`, `fk`) are carried. -/
structure Column where
  name : String
  pk : Bool := false
  fk : Option ForeignKey := none
deriving Repr, DecidableEq

/-- Table index entry: `{ name, columns }`; the `columns` field may be
absent in which case app.js substitutes `idx.columns || []`. -/
structure IndexDef where
  name : String
  columns : Option (List String) := none
deriving Repr, DecidableEq

/-- Schema object (entry of `SCHEMA.objects`): key, type tag
("table" | "enum" | "view" | "function" | "trigger"), display name,
optional domain, and for tables the optional column / index lists
(app.js guards them with `if (!tbl.columns) continue` and
`tbl.indexes || []`). -/
structure SchemaObject where
  key : String
  type : String
  name : String
  domain : Option String := none
  columns : Option (List Column) := none
  indexes : Option (List IndexDef) := none
deriving Repr, DecidableEq

/-- The table list: app.js line 856 `objects.filter(o => o.type === "table")`;
`byType.get("table")` (lines 25-29) yields the same list because entries are
pushed in dataset order. -/
def tablesOf (objects : List SchemaObject) : List SchemaObject :=
  objects.filter (fun o => o.type == "table")

/-- Audit finding record pushed by `auditFkIndexes` (app.js lines 832-837). -/
structure AuditFinding where
  table : String
  column : String
  referencedTable : String
  suggestion : String
deriving Repr, DecidableEq

/-- The index-coverage test of `auditFkIndexes` (app.js lines 825-829):
some index has the FK column as the first element of its column list
(`idxCols.length > 0 && idxCols[0] === fkColName`). -/
def hasCoveringIndex (tbl : SchemaObject) (fkColName : String) : Bool :=
  (tbl.indexes.getD []).any (fun idx =>
    match idx.columns.getD [] with
    | [] => false
    | c :: _ => c == fkColName)

/-- The finding record built at app.js lines 832-837. -/
def fkFinding (tbl : SchemaObject) (col : Column) (fk : ForeignKey) : AuditFinding :=
  { table := tbl.name
    column := col.name
    referencedTable := fk.table
    suggestion := "CREATE INDEX idx_" ++ tbl.name ++ "_" ++ col.name ++
      " ON " ++ tbl.name ++ "(" ++ col.name ++ ");" }

/-- Findings contributed by one column (body of the inner loop of
`auditFkIndexes`, app.js lines 820-839). -/
def auditTableColumn (tbl : SchemaObject) (col : Column) : List AuditFinding :=
  match col.fk with
  | none => []
  | some fk => if hasCoveringIndex tbl col.name then [] else [fkFinding tbl col fk]

/-- Findings contributed by one table (outer loop body of `auditFkIndexes`,
app.js lines 817-840, including the `if (!tbl.columns) continue` guard). -/
def auditTable (tbl : SchemaObject) : List AuditFinding :=
  match tbl.columns with
  | none => []
  | some cols => cols.flatMap (auditTableColumn tbl)

/-- `auditFkIndexes()` (app.js lines 813-843): scan every FK column of
every table and emit a finding when no covering index exists. -/
def auditFkIndexes (objects : List SchemaObject) : List AuditFinding :=
  (tablesOf objects).flatMap auditTable

/-- Diagram edge `{ from, to, label }` (app.js line 877); `from` is a
keyword in Lean so the field is spelled `from_`, and `to_` likewise. -/
structure Edge where
  from_ : String
  to_ : String
  label : String
deriving Repr, DecidableEq

/-- FK target resolution of the edge builder (app.js line 875):
`objects.find(o => o.type === "table" && o.name === c.fk.table)`. -/
def resolveTable (objects : List SchemaObject) (tname : String) : Option SchemaObject :=
  objects.find? (fun o => o.type == "table" && o.name == tname)

/-- Edges contributed by one column (app.js lines 873-879). -/
def edgesOfColumn (objects : List SchemaObject) (t : SchemaObject) (c : Column) : List Edge :=
  match c.fk with
  | none => []
  | some fk =>
    match resolveTable objects fk.table with
    | none => []
    | some target => [{ from_ := t.key, to_ := target.key, label := c.name }]

/-- Edges contributed by one table (app.js lines 871-881, including the
`if (!t.columns) continue` guard). -/
def edgesOfTable (objects : List SchemaObject) (t : SchemaObject) : List Edge :=
  match t.columns with
  | none => []
  | some cols => cols.flatMap (edgesOfColumn objects t)

/-- The edge list built at app.js lines 870-881. -/
def buildEdges (objects : List SchemaObject) : List Edge :=
  (tablesOf objects).flatMap (edgesOfTable objects)

/-- Grid constants of the diagram layout (app.js lines 851-854). -/
def NODE_W : Nat := 200

def NODE_PAD : Nat := 40

def COL_COUNT : Nat := 6

def ROW_HEIGHT : Nat := 160

/-- Node position record. -/
structure Pos where
  x : Nat
  y : Nat
deriving Repr, DecidableEq

/-- Grid position of index i (app.js lines 860-866): column = i mod 6,
row = floor(i / 6), x = column * (200 + 40) + 50, y = row * 160 + 50. -/
def gridPos (i : Nat) : Pos :=
  { x := (i % COL_COUNT) * (NODE_W + NODE_PAD) + 50
    y := (i / COL_COUNT) * ROW_HEIGHT + 50 }

/-- The `nodePos` map built by `tables.forEach((t, i) => ...)`
(app.js lines 857-867), as the association list of (key, position)
pairs in iteration order. -/
def nodePos (tables : List SchemaObject) : List (String × Pos) :=
  tables.enum.map (fun p => (p.2.key, gridPos p.1))

/-- The interaction state record (app.js lines 795-806); pan is split
into its two coordinates. -/
structure InteractionState where
  view : String := "diagram"
  filter : String := ""
  typeFilter : String := "all"
  domainFilter : Option String := none
  selected : Option String := none
  hovered : Option String := none
  showEdges : String := "focus"
  isolateMode : Bool := false
  zoom : ℚ := 1
  panX : ℚ := 0
  panY : ℚ := 0
deriving Repr, DecidableEq

/-- The active key of `updateEdgeVisibility` and `renderInspector`
(app.js line 1069): `state.selected || state.hovered`; keys are
non-empty strings, so JavaScript truthiness coincides with Option
presence. -/
def activeKey (st : InteractionState) : Option String :=
  st.selected.orElse (fun _ => st.hovered)

/-- Edge highlighting test (app.js line 1076):
`activeKey && (from === activeKey || to === activeKey)`. -/
def isHighlighted (st : InteractionState) (e : Edge) : Bool :=
  match activeKey st with
  | none => false
  | some k => e.from_ == k || e.to_ == k

/-- The opacity assigned to an edge by `updateEdgeVisibility`
(app.js lines 1088-1095), as a rational number: "0", "1" and "0.4"
style strings become 0, 1 and 0.4. -/
def edgeOpacity (st : InteractionState) (e : Edge) : ℚ :=
  if st.showEdges == "off" then 0
  else if st.showEdges == "all" then (if isHighlighted st e then 1 else 0.4)
  else (if isHighlighted st e then 1 else 0)

/-- `getNeighborKeys(key)` (app.js lines 1102-1112).  The source builds
a Set seeded with the key itself and extended across every edge in both
directions; only membership of the set is ever read, so the embedding
is the list with the same membership. -/
def getNeighborKeys (edges : List Edge) (key : String) : List String :=
  key :: edges.flatMap (fun e =>
    (if e.from_ == key then [e.to_] else []) ++
    (if e.to_ == key then [e.from_] else []))

/-- Dim state of a diagram node under `applyIsolateMode`
(app.js lines 1114-1134): no dimming when isolate mode is off or
nothing is selected, otherwise a node is dimmed exactly when its key is
outside the neighbor set of the selection. -/
def nodeDimmed (edges : List Edge) (st : InteractionState) (nodeKey : String) : Bool :=
  if !st.isolateMode then false
  else
    match st.selected with
    | none => false
    | some sel => !((getNeighborKeys edges sel).contains nodeKey)

/-- Dim state of a diagram edge under `applyIsolateMode`
(app.js lines 1136-1145): dimmed unless both endpoints are in the
neighbor set of the selection. -/
def edgeDimmed (edges : List Edge) (st : InteractionState) (e : Edge) : Bool :=
  if !st.isolateMode then false
  else
    match st.selected with
    | none => false
    | some sel =>
      let visibleKeys := getNeighborKeys edges sel
      !(visibleKeys.contains e.from_ && visibleKeys.contains e.to_)

/-- `selectObject(key)` (app.js lines 1918-1925): the only state write
is `state.selected = key`; the rest of the body re-renders. -/
def selectObject (st : InteractionState) (key : Option String) : InteractionState :=
  { st with selected := key }

/-- `hoverObject(key)` (app.js lines 1927-1933): the only state write
is `state.hovered = key`. -/
def hoverObject (st : InteractionState) (key : Option String) : InteractionState :=
  { st with hovered := key }

/-- The Escape key handler (app.js lines 2101-2109): writes
`state.selected = null; state.hovered = null` and re-renders. -/
def escapeDeselect (st : InteractionState) : InteractionState :=
  { st with selected := none, hovered := none }

/-- The isolate checkbox handler (app.js line 2012):
`state.isolateMode = isolateCheckbox.checked`. -/
def toggleIsolation (st : InteractionState) (checked : Bool) : InteractionState :=
  { st with isolateMode := checked }

/-- Raw dataset entry as seen by the startup guard: `name` and `type`
may be absent (malformed entry in the sense of the spec). -/
structure RawEntry where
  name : Option String := none
  type : Option String := none
deriving Repr, DecidableEq

/-- The `objects` field of `window.SCHEMA`: either not an array, or an
array of entries. -/
inductive RawObjects where
  | notArray : RawObjects
  | arr : List RawEntry → RawObjects
deriving Repr, DecidableEq

/-- `window.SCHEMA` value. -/
structure RawSchema where
  objects : RawObjects
deriving Repr, DecidableEq

/-- The startup guard (app.js lines 17-20):
`if (!window.SCHEMA || !Array.isArray(window.SCHEMA.objects)) { console.error(...); return; }`.
The result is true exactly when the IIFE proceeds past the guard and
initialization continues; false means the fatal error is logged and
the IIFE returns. -/
def startupProceeds (w : Option RawSchema) : Bool :=
  match w with
  | none => false
  | some s =>
    match s.objects with
    | RawObjects.notArray => false
    | RawObjects.arr _ => true

/-- An entry is malformed in the sense of spec section 4.1 when `name`
or `type` is missing. -/
def entryMalformed (e : RawEntry) : Bool :=
  e.name.isNone || e.type.isNone

/-- Incoming reference record pushed by `findIncomingReferences`
(app.js line 1322). -/
structure IncomingRef where
  table : String
  column : String
deriving Repr, DecidableEq

/-- References contributed by one table (inner loops of
`findIncomingReferences`, app.js lines 1318-1325). -/
def incomingRefsOfTable (tbl : SchemaObject) (tableName : String) : List IncomingRef :=
  match tbl.columns with
  | none => []
  | some cols => cols.flatMap (fun col =>
      match col.fk with
      | none => []
      | some fk => if fk.table == tableName then [{ table := tbl.name, column := col.name }] else [])

/-- `findIncomingReferences(tableName)` (app.js lines 1315-1327): scan
every column of every table for a FK whose target name equals the
argument. -/
def findIncomingReferences (objects : List SchemaObject) (tableName : String) : List IncomingRef :=
  (tablesOf objects).flatMap (fun tbl => incomingRefsOfTable tbl tableName)

/-- Name of the (first) object carrying a given key; used to read the
source-table name off an edge, whose `from_` field is a key. -/
def tableNameOfKey (objects : List SchemaObject) (k : String) : Option String :=
  (objects.find? (fun o => o.key == k)).map (fun o => o.name)

/-- Edge list as the spec describes it (sections 4.2 and 8): for every
table, for every column with a foreign key, resolve the target table by
name; a resolvable column contributes exactly one edge and an
unresolvable one contributes none. -/
def edgesSpec (objects : List SchemaObject) : List Edge :=
  (tablesOf objects).flatMap (fun t =>
    (t.columns.getD []).filterMap (fun c =>
      c.fk.bind (fun fk =>
        (resolveTable objects fk.table).map (fun target =>
          { from_ := t.key, to_ := target.key, label := c.name }))))

/-- Number of FK columns whose target name resolves to an existing
table (the spec-side edge count, section 8). -/
def fkResolvableCount (objects : List SchemaObject) : Nat :=
  ((tablesOf objects).map (fun t =>
    (t.columns.getD []).countP (fun c =>
      match c.fk with
      | none => false
      | some fk => (resolveTable objects fk.table).isSome))).sum

/-- Concrete dataset used by the witnesses, after the scenario of spec
section 8: clients (no FK), locations with FK client_id to clients
covered only by a composite index in non-first position, and a third
table with a dangling FK. -/
def demoClientsCols : List Column :=
  [{ name := "id", pk := true }, { name := "name" }]

def demoLocCols : List Column :=
  [{ name := "id", pk := true },
   { name := "client_id", fk := some { table := "clients", column := "id" } },
   { name := "other" }]

def demoClientIdCol : Column :=
  { name := "client_id", fk := some { table := "clients", column := "id" } }

def demoClientIdFk : ForeignKey :=
  { table := "clients", column := "id" }

def demoClients : SchemaObject :=
  { key := "table_clients", type := "table", name := "clients",
    columns := some demoClientsCols, indexes := some [] }

def demoLocations : SchemaObject :=
  { key := "table_locations", type := "table", name := "locations",
    columns := some demoLocCols,
    indexes := some [{ name := "idx_loc_other", columns := some ["other", "client_id"] }] }

def demoOrphans : SchemaObject :=
  { key := "table_orphans", type := "table", name := "orphans",
    columns := some [{ name := "id", pk := true },
                     { name := "ghost_id", fk := some { table := "ghosts", column := "id" } }] }

def demoObjects : List SchemaObject := [demoClients, demoLocations, demoOrphans]

def demoEdge : Edge :=
  { from_ := "table_locations", to_ := "table_clients", label := "client_id" }

def demoStateIso : InteractionState :=
  { selected := some "table_locations", isolateMode := true }

def demoStateSelHover : InteractionState :=
  { selected := some "table_locations", hovered := some "table_orphans" }

/-- Dataset whose only entry is missing both name and type: the shape
of the list is fine, the entry is malformed. -/
def demoBadDataset : Option RawSchema :=
  some { objects := RawObjects.arr [{ name := none, type := none }] }

end AAExplorer

namespace AAExplorer

/-- Helper: flatMap respects pointwise equality on members. -/
theorem flatMap_congr_mem {α β : Type} {l : List α} {f g : α → List β}
    (h : ∀ a ∈ l, f a = g a) : l.flatMap f = l.flatMap g := by
  induction l with
  | nil => rfl
  | cons x t ih =>
    simp only [List.flatMap_cons]
    rw [h x (List.mem_cons_self x t), ih (fun a ha => h a (List.mem_cons_of_mem x ha))]

/-- Helper: filter distributes over flatMap. -/
theorem filter_flatMap {α β : Type} (l : List α) (f : α → List β) (p : β → Bool) :
    (l.flatMap f).filter p = l.flatMap (fun a => (f a).filter p) := by
  induction l with
  | nil => rfl
  | cons x t ih => simp [List.flatMap_cons, List.filter_append, ih]

/-- Helper: map distributes over flatMap. -/
theorem map_flatMap {α β γ : Type} (l : List α) (f : α → List β) (g : β → γ) :
    (l.flatMap f).map g = l.flatMap (fun a => (f a).map g) := by
  induction l with
  | nil => rfl
  | cons x t ih => simp [List.flatMap_cons, List.map_append, ih]

/-- Helper: a flatMap whose pieces are empty or singleton is a filterMap. -/
theorem flatMap_singleton_filterMap {α β : Type} (l : List α) (f : α → List β)
    (g : α → Option β) (h : ∀ a ∈ l, f a = (g a).toList) :
    l.flatMap f = l.filterMap g := by
  induction l with
  | nil => rfl
  | cons x t ih =>
    simp only [List.flatMap_cons, List.filterMap_cons]
    rw [h x (List.mem_cons_self x t), ih (fun a ha => h a (List.mem_cons_of_mem x ha))]
    cases g x <;> simp [Option.toList]

/-- Helper: length of a flatMap whose pieces have length zero or one. -/
theorem length_flatMap_countP {α β : Type} (l : List α) (g : α → List β) (p : α → Bool)
    (h : ∀ a ∈ l, (g a).length = if p a then 1 else 0) :
    (l.flatMap g).length = l.countP p := by
  induction l with
  | nil => rfl
  | cons x t ih =>
    simp only [List.flatMap_cons, List.length_append, List.countP_cons]
    rw [h x (List.mem_cons_self x t), ih (fun a ha => h a (List.mem_cons_of_mem x ha))]
    omega

/-- Helper: length of a flatMap is the sum of the piece lengths. -/
theorem length_flatMap_sum {α β : Type} (l : List α) (f : α → List β) :
    (l.flatMap f).length = (l.map (fun a => (f a).length)).sum := by
  induction l with
  | nil => rfl
  | cons x t ih => simp [List.flatMap_cons, ih]

/-- Helper: a flatMap all of whose pieces contribute countP zero has countP zero. -/
theorem countP_flatMap_zero {α β : Type} {l : List α} {f : α → List β} {p : β → Bool}
    (h : ∀ a ∈ l, (f a).countP p = 0) : (l.flatMap f).countP p = 0 := by
  induction l with
  | nil => rfl
  | cons x t ih =>
    simp only [List.flatMap_cons, List.countP_append]
    rw [h x (List.mem_cons_self x t), ih (fun a ha => h a (List.mem_cons_of_mem x ha))]

/-- Helper: when exactly one member of the list satisfies the selector q and
all q-negative members contribute countP zero, the countP of the flatMap is
the contribution of the selected member. -/
theorem countP_flatMap_single {α β : Type} {l : List α} {f : α → List β} {p : β → Bool}
    {q : α → Bool} {a : α}
    (hq : l.countP q = 1) (ha : a ∈ l) (hqa : q a = true)
    (hzero : ∀ b ∈ l, q b = false → (f b).countP p = 0) :
    (l.flatMap f).countP p = (f a).countP p := by
  induction l with
  | nil => exact absurd ha (List.not_mem_nil a)
  | cons x t ih =>
    simp only [List.flatMap_cons, List.countP_append]
    rw [List.countP_cons] at hq
    by_cases hx : q x = true
    · have hall : ∀ b ∈ t, q b = false := by
        have hq2 := hq
        simp [hx] at hq2
        exact hq2
      have hax : a = x := by
        rcases List.mem_cons.mp ha with h1 | h2
        · exact h1
        · rw [hall a h2] at hqa; exact absurd hqa (by simp)
      have htz : (t.flatMap f).countP p = 0 :=
        countP_flatMap_zero (fun b hb => hzero b (List.mem_cons_of_mem x hb) (hall b hb))
      rw [htz, hax]
      omega
    · have hx' : q x = false := by
        cases h2 : q x
        · rfl
        · exact absurd h2 hx
      have h0 : (f x).countP p = 0 := hzero x (List.mem_cons_self x t) hx'
      have hat : a ∈ t := by
        rcases List.mem_cons.mp ha with h1 | h2
        · rw [h1] at hqa; rw [hqa] at hx'; exact absurd hx' (by simp)
        · exact h2
      have hqt : t.countP q = 1 := by simp [hx'] at hq; omega
      rw [h0]
      simpa using ih hqt hat (fun b hb hb2 => hzero b (List.mem_cons_of_mem x hb) hb2)

/-- Helper: find? returns the unique element satisfying the predicate. -/
theorem find?_eq_some_of_unique {α : Type} {l : List α} {p : α → Bool} {a : α}
    (ha : a ∈ l) (hpa : p a = true) (huniq : ∀ b ∈ l, p b = true → b = a) :
    l.find? p = some a := by
  induction l with
  | nil => exact absurd ha (List.not_mem_nil a)
  | cons x t ih =>
    by_cases hx : p x = true
    · have : x = a := huniq x (List.mem_cons_self x t) hx
      rw [List.find?_cons_of_pos t hx, this]
    · rw [List.find?_cons_of_neg t hx]
      have hat : a ∈ t := by
        rcases List.mem_cons.mp ha with h1 | h2
        · rw [← h1] at hx; exact absurd hpa hx
        · exact h2
      exact ih hat (fun b hb hpb => huniq b (List.mem_cons_of_mem x hb) hpb)

/-- C8: the select operation sets selectedKey to its argument and changes no
other state field; the Escape deselection clears selectedKey and hoveredKey
while edge-visibility mode, isolation flag, pan, zoom and active view are
unchanged in both cases. -/
theorem selectObject_frame (st : InteractionState) (key : Option String) :
    (selectObject st key).selected = key
    ∧ (selectObject st key).hovered = st.hovered
    ∧ (selectObject st key).showEdges = st.showEdges
    ∧ (selectObject st key).isolateMode = st.isolateMode
    ∧ (selectObject st key).panX = st.panX
    ∧ (selectObject st key).panY = st.panY
    ∧ (selectObject st key).zoom = st.zoom
    ∧ (selectObject st key).view = st.view
    ∧ (selectObject st key).filter = st.filter
    ∧ (selectObject st key).typeFilter = st.typeFilter
    ∧ (selectObject st key).domainFilter = st.domainFilter
    ∧ (escapeDeselect st).selected = none
    ∧ (escapeDeselect st).hovered = none
    ∧ (escapeDeselect st).showEdges = st.showEdges
    ∧ (escapeDeselect st).isolateMode = st.isolateMode
    ∧ (escapeDeselect st).panX = st.panX
    ∧ (escapeDeselect st).panY = st.panY
    ∧ (escapeDeselect st).zoom = st.zoom
    ∧ (escapeDeselect st).view = st.view
    ∧ (escapeDeselect st).filter = st.filter
    ∧ (escapeDeselect st).typeFilter = st.typeFilter
    ∧ (escapeDeselect st).domainFilter = st.domainFilter :=
  ⟨rfl, rfl, rfl, rfl, rfl, rfl, rfl, rfl, rfl, rfl, rfl,
   rfl, rfl, rfl, rfl, rfl, rfl, rfl, rfl, rfl, rfl, rfl⟩

/-- C9 counterexample: a dataset whose objects array contains an entry with
missing name and type passes the startup guard, so initialization proceeds
even though the claim demands a fatal configuration error. -/
theorem startupGuard_claim_counterexample :
    ¬ (startupProceeds demoBadDataset = false ↔
        (demoBadDataset = none
         ∨ (∃ s, demoBadDataset = some s ∧ s.objects = RawObjects.notArray)
         ∨ (∃ s es, demoBadDataset = some s ∧ s.objects = RawObjects.arr es
             ∧ ∃ e ∈ es, entryMalformed e = true))) := by
  intro h
  have h1 : startupProceeds demoBadDataset = false :=
    h.mpr (Or.inr (Or.inr
      ⟨{ objects := RawObjects.arr [{ name := none, type := none }] },
       [{ name := none, type := none }], rfl, rfl,
       { name := none, type := none }, List.mem_singleton.mpr rfl, rfl⟩))
  exact absurd h1 (by decide)

/-- C9 (amended): the startup guard checks only the top-level shape:
initialization is refused exactly when the dataset is absent or its objects
field is not an array; individual entries are not validated. -/
theorem startupGuard_shape_only (w : Option RawSchema) :
    startupProceeds w = false ↔
      (w = none ∨ ∃ s, w = some s ∧ s.objects = RawObjects.notArray) := by
  cases w with
  | none => simp [startupProceeds]
  | some s =>
    obtain ⟨os⟩ := s
    cases os <;> simp [startupProceeds]

/-- C4: edge opacity as a function of the edge-visibility mode and the
highlight status: mode off gives opacity 0 to every edge, mode all gives 1
to highlighted edges and 0.4 to the rest, mode focus gives 1 to highlighted
edges and 0 to the rest. -/
theorem updateEdgeVisibility_opacity (st : InteractionState) (e : Edge) :
    (st.showEdges = "off" → edgeOpacity st e = 0)
    ∧ (st.showEdges = "all" →
        edgeOpacity st e = (if isHighlighted st e then 1 else 0.4))
    ∧ (st.showEdges = "focus" →
        edgeOpacity st e = (if isHighlighted st e then 1 else 0)) := by
  refine ⟨fun h => ?_, fun h => ?_, fun h => ?_⟩ <;> simp [edgeOpacity, h]

/-- C4 witness: for the demo selection state, mode off hides the demo edge,
while modes all and focus both give it opacity 1 because it touches the
selected table. -/
theorem updateEdgeVisibility_opacity_witness :
    ({ demoStateSelHover with showEdges := "off" } : InteractionState).showEdges = "off"
    ∧ edgeOpacity { demoStateSelHover with showEdges := "off" } demoEdge = 0
    ∧ edgeOpacity { demoStateSelHover with showEdges := "all" } demoEdge = 1
    ∧ edgeOpacity demoStateSelHover demoEdge = 1 := by
  refine ⟨rfl, ?_, ?_, ?_⟩
  · exact (updateEdgeVisibility_opacity { demoStateSelHover with showEdges := "off" } demoEdge).1 rfl
  · decide
  · decide

/-- C5: the active key is the selected key when a selection exists and the
hovered key otherwise; an edge is highlighted exactly when an active key
exists and is one of its endpoints; with both a selection and a hover
present, the selection wins. -/
theorem activeKey_precedence (st : InteractionState) (e : Edge) :
    (∀ k, st.selected = some k → activeKey st = some k)
    ∧ (st.selected = none → activeKey st = st.hovered)
    ∧ (isHighlighted st e = true ↔
        ∃ k, activeKey st = some k ∧ (e.from_ = k ∨ e.to_ = k))
    ∧ (∀ s h, st.selected = some s → st.hovered = some h → activeKey st = some s) := by
  refine ⟨?_, ?_, ?_, ?_⟩
  · intro k hk; simp [activeKey, hk, Option.orElse]
  · intro hk; cases hh : st.hovered <;> simp [activeKey, hk, hh, Option.orElse]
  · cases hak : activeKey st with
    | none => simp [isHighlighted, hak]
    | some k => simp [isHighlighted, hak]
  · intro s h hs hh; simp [activeKey, hs, Option.orElse]

/-- C5 witness: in the demo state the selection is table_locations and the
hover is the different table_orphans; the active key is the selected one and
the demo edge (an edge at the selection) is highlighted. -/
theorem activeKey_precedence_witness :
    demoStateSelHover.selected = some "table_locations"
    ∧ demoStateSelHover.hovered = some "table_orphans"
    ∧ activeKey demoStateSelHover = some "table_locations"
    ∧ isHighlighted demoStateSelHover demoEdge = true := by
  refine ⟨rfl, rfl, ?_, by decide⟩
  exact (activeKey_precedence demoStateSelHover demoEdge).1 "table_locations" rfl

/-- C7: the table at position i of the table list is placed on the grid at
column i mod 6 and row i div 6, with x = column * (200 + 40) + 50 and
y = row * 160 + 50, and the layout is a pure function of its input. -/
theorem nodePos_spec (tables : List SchemaObject) (i : Nat) (h : i < tables.length) :
    (nodePos tables)[i]? =
      some ((tables.get ⟨i, h⟩).key,
        { x := (i % COL_COUNT) * (NODE_W + NODE_PAD) + 50,
          y := (i / COL_COUNT) * ROW_HEIGHT + 50 })
    ∧ nodePos tables = nodePos tables := by
  refine ⟨?_, rfl⟩
  simp [nodePos, List.getElem?_map, List.getElem?_enum, List.getElem?_eq_getElem h,
    gridPos, List.get_eq_getElem]

/-- C7 witness: in the demo table list the third table (index 2) is the
orphans table and sits at grid position (530, 50). -/
theorem nodePos_spec_witness :
    2 < (tablesOf demoObjects).length
    ∧ (nodePos (tablesOf demoObjects))[2]? =
        some ("table_orphans", { x := 530, y := 50 }) := by
  refine ⟨by decide, ?_⟩
  have h := (nodePos_spec (tablesOf demoObjects) 2 (by decide)).1
  rw [h]
  decide

end AAExplorer

namespace AAExplorer

/-- Helper: membership in the neighbor set of a key is being the key itself
or sharing an edge with it in either direction. -/
theorem mem_getNeighborKeys (edges : List Edge) (key x : String) :
    x ∈ getNeighborKeys edges key ↔
      x = key ∨ ∃ e ∈ edges, (e.from_ = key ∧ e.to_ = x) ∨ (e.to_ = key ∧ e.from_ = x) := by
  simp only [getNeighborKeys, List.mem_cons, List.mem_flatMap, List.mem_append]
  constructor
  · rintro (h | ⟨e, he, h | h⟩)
    · exact Or.inl h
    · by_cases hc : (e.from_ == key) = true
      · rw [if_pos hc] at h
        exact Or.inr ⟨e, he, Or.inl ⟨by simpa using hc, (List.mem_singleton.mp h).symm⟩⟩
      · rw [if_neg hc] at h
        exact absurd h (List.not_mem_nil x)
    · by_cases hc : (e.to_ == key) = true
      · rw [if_pos hc] at h
        exact Or.inr ⟨e, he, Or.inr ⟨by simpa using hc, (List.mem_singleton.mp h).symm⟩⟩
      · rw [if_neg hc] at h
        exact absurd h (List.not_mem_nil x)
  · rintro (h | ⟨e, he, ⟨h1, h2⟩ | ⟨h1, h2⟩⟩)
    · exact Or.inl h
    · exact Or.inr ⟨e, he, Or.inl (by simp [h1, h2])⟩
    · exact Or.inr ⟨e, he, Or.inr (by simp [h1, h2])⟩

/-- C6: neighbor computation is symmetric (edges count in both directions)
and every key is a neighbor of itself. -/
theorem getNeighborKeys_symm_self (edges : List Edge) (a b : String) :
    (b ∈ getNeighborKeys edges a ↔ a ∈ getNeighborKeys edges b)
    ∧ a ∈ getNeighborKeys edges a := by
  refine ⟨?_, by rw [mem_getNeighborKeys]; exact Or.inl rfl⟩
  rw [mem_getNeighborKeys, mem_getNeighborKeys]
  constructor
  · rintro (h | ⟨e, he, ⟨h1, h2⟩ | ⟨h1, h2⟩⟩)
    · exact Or.inl h.symm
    · exact Or.inr ⟨e, he, Or.inr ⟨h2, h1⟩⟩
    · exact Or.inr ⟨e, he, Or.inl ⟨h2, h1⟩⟩
  · rintro (h | ⟨e, he, ⟨h1, h2⟩ | ⟨h1, h2⟩⟩)
    · exact Or.inl h.symm
    · exact Or.inr ⟨e, he, Or.inr ⟨h2, h1⟩⟩
    · exact Or.inr ⟨e, he, Or.inl ⟨h2, h1⟩⟩

/-- C3: with isolation off or no selection nothing is dimmed; with isolation
on and a selection, a node is dimmed exactly when it is outside the neighbor
set of the selection and an edge is dimmed exactly when not both endpoints
are inside; switching isolation off removes all dimming and keeps the
selection. -/
theorem applyIsolateMode_spec (edges : List Edge) (st : InteractionState) :
    ((st.isolateMode = false ∨ st.selected = none) →
      (∀ k, nodeDimmed edges st k = false) ∧ (∀ e, edgeDimmed edges st e = false))
    ∧ (∀ sel, st.isolateMode = true → st.selected = some sel →
        ((∀ k, nodeDimmed edges st k = true ↔ k ∉ getNeighborKeys edges sel)
         ∧ (∀ e, edgeDimmed edges st e = true ↔
             ¬ (e.from_ ∈ getNeighborKeys edges sel ∧ e.to_ ∈ getNeighborKeys edges sel))))
    ∧ (∀ k, nodeDimmed edges (toggleIsolation st false) k = false)
    ∧ (∀ e, edgeDimmed edges (toggleIsolation st false) e = false)
    ∧ (toggleIsolation st false).selected = st.selected := by
  refine ⟨?_, ?_, ?_, ?_, rfl⟩
  · rintro (h | h)
    · exact ⟨fun k => by simp [nodeDimmed, h], fun e => by simp [edgeDimmed, h]⟩
    · refine ⟨fun k => ?_, fun e => ?_⟩ <;> cases hiso : st.isolateMode <;>
        simp [nodeDimmed, edgeDimmed, h, hiso]
  · intro sel hiso hsel
    refine ⟨fun k => ?_, fun e => ?_⟩
    · simp [nodeDimmed, hiso, hsel]
    · simp [edgeDimmed, hiso, hsel]
      tauto
  · intro k; simp [nodeDimmed, toggleIsolation]
  · intro e; simp [edgeDimmed, toggleIsolation]

/-- C3 witness: selecting the locations table with isolation on dims the
unrelated orphans table and not the neighboring clients table; switching
isolation off removes edge dimming and keeps the selection. -/
theorem applyIsolateMode_spec_witness :
    nodeDimmed (buildEdges demoObjects) demoStateIso "table_orphans" = true
    ∧ nodeDimmed (buildEdges demoObjects) demoStateIso "table_clients" = false
    ∧ edgeDimmed (buildEdges demoObjects) (toggleIsolation demoStateIso false) demoEdge = false
    ∧ (toggleIsolation demoStateIso false).selected = some "table_locations" := by
  have h := applyIsolateMode_spec (buildEdges demoObjects) demoStateIso
  refine ⟨?_, by decide, by decide, by decide⟩
  exact ((h.2.1 "table_locations" rfl rfl).1 "table_orphans").mpr (by decide)

end AAExplorer

namespace AAExplorer

/-- Helper: the edges contributed by one column are empty or the single
edge to the resolved target, written as an Option. -/
theorem edgesOfColumn_toList (objects : List SchemaObject) (t : SchemaObject) (c : Column) :
    edgesOfColumn objects t c =
      (c.fk.bind (fun fk =>
        (resolveTable objects fk.table).map (fun target =>
          ({ from_ := t.key, to_ := target.key, label := c.name } : Edge)))).toList := by
  cases hfk : c.fk with
  | none => simp [edgesOfColumn, hfk]
  | some fk =>
    cases hr : resolveTable objects fk.table <;>
      simp [edgesOfColumn, hfk, hr, Option.toList]

/-- Helper: a column contributes one edge when its FK target resolves and
none otherwise. -/
theorem edgesOfColumn_length (objects : List SchemaObject) (t : SchemaObject) (c : Column) :
    (edgesOfColumn objects t c).length =
      (if (match c.fk with
           | none => false
           | some fk => (resolveTable objects fk.table).isSome) then 1 else 0) := by
  cases hfk : c.fk with
  | none => simp [edgesOfColumn, hfk]
  | some fk => cases hr : resolveTable objects fk.table <;> simp [edgesOfColumn, hfk, hr]

/-- Helper: per-table edge count is the number of resolvable FK columns. -/
theorem edgesOfTable_length (objects : List SchemaObject) (t : SchemaObject) :
    (edgesOfTable objects t).length =
      (t.columns.getD []).countP (fun c =>
        match c.fk with
        | none => false
        | some fk => (resolveTable objects fk.table).isSome) := by
  cases hc : t.columns with
  | none => simp [edgesOfTable, hc]
  | some cols =>
    simp only [edgesOfTable, hc, Option.getD_some]
    exact length_flatMap_countP _ _ _ (fun c _ => edgesOfColumn_length objects t c)

/-- C2: the derived edge list is exactly the per-FK-column list the spec
describes (one edge per FK column whose target name resolves to an existing
table, nothing else, duplicates preserved), and consequently its length is
the number of FK columns with resolvable targets. -/
theorem buildEdges_spec (objects : List SchemaObject) :
    buildEdges objects = edgesSpec objects
    ∧ (buildEdges objects).length = fkResolvableCount objects := by
  constructor
  · unfold buildEdges edgesSpec
    apply flatMap_congr_mem
    intro t ht
    cases hc : t.columns with
    | none => simp [edgesOfTable, hc]
    | some cols =>
      simp only [edgesOfTable, hc, Option.getD_some]
      exact flatMap_singleton_filterMap _ _ _
        (fun c _ => edgesOfColumn_toList objects t c)
  · unfold buildEdges fkResolvableCount
    rw [length_flatMap_sum]
    have hfn : (fun t => (edgesOfTable objects t).length)
        = (fun t : SchemaObject => (t.columns.getD []).countP (fun c =>
            match c.fk with
            | none => false
            | some fk => (resolveTable objects fk.table).isSome)) :=
      funext (fun t => edgesOfTable_length objects t)
    rw [hfn]

end AAExplorer

namespace AAExplorer

/-- Helper: any finding produced for a column carries that table name and
that column name. -/
theorem mem_auditTableColumn {tbl : SchemaObject} {col : Column} {f : AuditFinding}
    (hf : f ∈ auditTableColumn tbl col) : f.table = tbl.name ∧ f.column = col.name := by
  simp only [auditTableColumn] at hf
  cases hcol : col.fk with
  | none => simp only [hcol] at hf; exact absurd hf (List.not_mem_nil f)
  | some fk =>
    simp only [hcol] at hf
    by_cases hci : hasCoveringIndex tbl col.name = true
    · rw [if_pos hci] at hf; exact absurd hf (List.not_mem_nil f)
    · rw [if_neg hci] at hf
      have hfe : f = fkFinding tbl col fk := List.mem_singleton.mp hf
      rw [hfe]; exact ⟨rfl, rfl⟩

/-- Helper: any finding produced for a table carries that table name. -/
theorem mem_auditTable {tbl : SchemaObject} {f : AuditFinding}
    (hf : f ∈ auditTable tbl) : f.table = tbl.name := by
  simp only [auditTable] at hf
  cases hc : tbl.columns with
  | none => simp only [hc] at hf; exact absurd hf (List.not_mem_nil f)
  | some cols =>
    simp only [hc] at hf
    obtain ⟨c, _, hcf⟩ := List.mem_flatMap.mp hf
    exact (mem_auditTableColumn hcf).1

/-- Helper: the matching-finding count contributed by the column itself is
one when uncovered and zero when covered. -/
theorem auditTableColumn_countP (tbl : SchemaObject) (col : Column) (fk : ForeignKey)
    (hfk : col.fk = some fk) :
    (auditTableColumn tbl col).countP
        (fun f => f.table == tbl.name && f.column == col.name)
      = if hasCoveringIndex tbl col.name then 0 else 1 := by
  simp only [auditTableColumn, hfk]
  by_cases hci : hasCoveringIndex tbl col.name = true
  · rw [if_pos hci, if_pos hci]; rfl
  · rw [if_neg hci, if_neg hci]
    simp [List.countP_cons, fkFinding]

/-- C1: for a table whose name is unique among tables and a FK column whose
name is unique in that table, the audit emits exactly one matching finding
when no index has the column first (zero when one has), and the exact
finding record is in the audit output precisely when no covering index
exists; a table with no indexes is never covered and an index listing the
column in a non-first position does not cover it. -/
theorem auditFkIndexes_spec
    (objects : List SchemaObject) (tbl : SchemaObject) (cols : List Column)
    (col : Column) (fk : ForeignKey)
    (hmem : tbl ∈ tablesOf objects)
    (hcols : tbl.columns = some cols)
    (hcol : col ∈ cols)
    (hfk : col.fk = some fk)
    (htU : (tablesOf objects).countP (fun t => t.name == tbl.name) = 1)
    (hcU : cols.countP (fun c => c.name == col.name) = 1) :
    (auditFkIndexes objects).countP
        (fun f => f.table == tbl.name && f.column == col.name)
      = (if hasCoveringIndex tbl col.name then 0 else 1)
    ∧ (fkFinding tbl col fk ∈ auditFkIndexes objects
        ↔ hasCoveringIndex tbl col.name = false) := by
  have hz1 : ∀ b ∈ tablesOf objects, (fun t : SchemaObject => t.name == tbl.name) b = false →
      (auditTable b).countP (fun f => f.table == tbl.name && f.column == col.name) = 0 := by
    intro b hb hbq
    apply List.countP_eq_zero.mpr
    intro f hf
    have hft := mem_auditTable hf
    simp only [hft]
    simp only at hbq
    simp [hbq]
  have hz2 : ∀ c ∈ cols, (fun c : Column => c.name == col.name) c = false →
      (auditTableColumn tbl c).countP (fun f => f.table == tbl.name && f.column == col.name) = 0 := by
    intro c hc hcq
    apply List.countP_eq_zero.mpr
    intro f hf
    have hfc := (mem_auditTableColumn hf).2
    simp only [hfc]
    simp only at hcq
    simp [hcq]
  have e1 := countP_flatMap_single htU hmem
    (show (fun t : SchemaObject => t.name == tbl.name) tbl = true by simp) hz1
  have e2 := countP_flatMap_single hcU hcol
    (show (fun c : Column => c.name == col.name) col = true by simp) hz2
  have hcount : (auditFkIndexes objects).countP
      (fun f => f.table == tbl.name && f.column == col.name)
      = (if hasCoveringIndex tbl col.name then 0 else 1) := by
    unfold auditFkIndexes
    rw [e1]
    simp only [auditTable, hcols]
    rw [e2]
    exact auditTableColumn_countP tbl col fk hfk
  refine ⟨hcount, ?_⟩
  constructor
  · intro hmemf
    cases hcv : hasCoveringIndex tbl col.name
    · rfl
    · exfalso
      have hpos : 0 < (auditFkIndexes objects).countP
          (fun f => f.table == tbl.name && f.column == col.name) :=
        List.countP_pos_iff.mpr ⟨fkFinding tbl col fk, hmemf, by simp [fkFinding]⟩
      rw [hcount] at hpos
      simp [hcv] at hpos
  · intro hcv
    unfold auditFkIndexes
    apply List.mem_flatMap.mpr
    refine ⟨tbl, hmem, ?_⟩
    simp only [auditTable, hcols]
    apply List.mem_flatMap.mpr
    refine ⟨col, hcol, ?_⟩
    simp only [auditTableColumn, hfk]
    rw [if_neg (by simp [hcv])]
    exact List.mem_singleton.mpr rfl

/-- C1 witness: in the demo dataset the locations table has the FK column
client_id whose only index mention is in a non-first position of a composite
index, so the audit emits exactly one matching finding and the exact finding
record is present. -/
theorem auditFkIndexes_spec_witness :
    (auditFkIndexes demoObjects).countP
        (fun f => f.table == demoLocations.name && f.column == demoClientIdCol.name)
      = (if hasCoveringIndex demoLocations demoClientIdCol.name then 0 else 1)
    ∧ (fkFinding demoLocations demoClientIdCol demoClientIdFk ∈ auditFkIndexes demoObjects
        ↔ hasCoveringIndex demoLocations demoClientIdCol.name = false) :=
  auditFkIndexes_spec demoObjects demoLocations demoLocCols demoClientIdCol demoClientIdFk
    (by decide) rfl (by decide) rfl (by decide) (by decide)

end AAExplorer

namespace AAExplorer

/-- Helper: when T is a table whose name is unique among tables, FK target
resolution on the name of T yields T itself. -/
theorem resolveTable_eq_self
    {objects : List SchemaObject} {T : SchemaObject}
    (hmem : T ∈ objects) (htype : T.type = "table")
    (hname : ∀ o ∈ objects, o.type = "table" → o.name = T.name → o = T) :
    resolveTable objects T.name = some T := by
  apply find?_eq_some_of_unique hmem
  · simp [htype]
  · intro b hb hpb
    simp only [Bool.and_eq_true, beq_iff_eq] at hpb
    exact hname b hb hpb.1 hpb.2

/-- Helper: with pairwise-injective keys, the name lookup by key of a
member table returns the name of that table. -/
theorem tableNameOfKey_eq
    {objects : List SchemaObject} {t : SchemaObject}
    (hmem : t ∈ objects)
    (hkeys : ∀ o ∈ objects, ∀ o2 ∈ objects, o.key = o2.key → o = o2) :
    tableNameOfKey objects t.key = some t.name := by
  unfold tableNameOfKey
  rw [find?_eq_some_of_unique hmem (by simp)
    (fun b hb hpb => hkeys b hb t hmem (by simpa using hpb))]
  rfl

/-- C10: for a table T whose name is unique among tables (and with the
pairwise-unique keys the data model guarantees), the direct incoming
reference scan by target name returns exactly the (source table name,
source column name) pairs of the derived edges whose target endpoint is
the key of T. -/
theorem findIncomingReferences_spec
    (objects : List SchemaObject) (T : SchemaObject)
    (hmem : T ∈ objects) (htype : T.type = "table")
    (hname : ∀ o ∈ objects, o.type = "table" → o.name = T.name → o = T)
    (hkeys : ∀ o ∈ objects, ∀ o2 ∈ objects, o.key = o2.key → o = o2) :
    ((buildEdges objects).filter (fun e => e.to_ == T.key)).map
        (fun e => (tableNameOfKey objects e.from_, e.label))
      = (findIncomingReferences objects T.name).map
          (fun r => (some r.table, r.column)) := by
  unfold buildEdges findIncomingReferences
  rw [filter_flatMap, map_flatMap, map_flatMap]
  apply flatMap_congr_mem
  intro t ht
  have htmem : t ∈ objects := List.mem_of_mem_filter ht
  cases hc : t.columns with
  | none => simp [edgesOfTable, incomingRefsOfTable, hc]
  | some cols =>
    simp only [edgesOfTable, incomingRefsOfTable, hc]
    rw [filter_flatMap, map_flatMap, map_flatMap]
    apply flatMap_congr_mem
    intro c hcc
    cases hfk : c.fk with
    | none => simp [edgesOfColumn, hfk]
    | some fk =>
      by_cases hq : (fk.table == T.name) = true
      · have hq2 : fk.table = T.name := by simpa using hq
        have hres : resolveTable objects fk.table = some T := by
          rw [hq2]; exact resolveTable_eq_self hmem htype hname
        simp only [edgesOfColumn, hfk, hres, hq]
        simp [tableNameOfKey_eq htmem hkeys]
      · cases hr : resolveTable objects fk.table with
        | none => simp [edgesOfColumn, hfk, hr, hq]
        | some target =>
          have htmem2 : target ∈ objects := List.mem_of_find?_eq_some hr
          have hprop := List.find?_some hr
          simp only [Bool.and_eq_true, beq_iff_eq] at hprop
          have hne : (target.key == T.key) = false := by
            apply beq_eq_false_iff_ne.mpr
            intro hkeq
            have heq : target = T := hkeys target htmem2 T hmem hkeq
            rw [heq] at hprop
            rw [hprop.2] at hq
            simp at hq
          simp [edgesOfColumn, hfk, hr, hq, hne]

/-- C10 witness: in the demo dataset the incoming references of the clients
table are exactly the pairs read off the edges targeting its key, namely
the single pair (locations, client_id). -/
theorem findIncomingReferences_spec_witness :
    ((buildEdges demoObjects).filter (fun e => e.to_ == demoClients.key)).map
        (fun e => (tableNameOfKey demoObjects e.from_, e.label))
      = (findIncomingReferences demoObjects demoClients.name).map
          (fun r => (some r.table, r.column)) :=
  findIncomingReferences_spec demoObjects demoClients (by decide) rfl
    (by decide) (by decide)

end AAExplorer
